import Mathlib

/-!
Verification of the `envelope-signal` repository (`src/index.js`).

The repository defines two closely related classes:

* `EnvelopeSignal` (src/index.js lines 1-219): breakpoints, `pick`
  (interpolation, strict `>` right-bound search), `addBreakpoint`,
  `deleteBreakpoint`, `breakpointExists`, `sortBreakpoints`, and the
  signal algebra `add` / `multiply` / `subtract` / `invert`.
* `BreakpointEnvelope` (src/index.js lines 220-332): an earlier variant
  whose `pick` uses an inclusive `>=` right-bound search.

JS numbers are modelled as `ℚ` (exact arithmetic; every operation used by
the code is a field operation or a comparison).  The `-Infinity` /
`Infinity` sentinel breakpoints used by the left/right scans in `pick`
are modelled by `Option Breakpoint` accumulators: `none` is the sentinel
(a finite position always compares past it, exactly as every finite JS
number compares past `±Infinity`), and the sentinel's value is the
envelope's `defaultValue`, read off in the final `match`.
-/

namespace EnvSig

/-- A breakpoint, src/index.js lines 18-24: an immutable (position, value)
pair.  The constructor's `undefined` checks are modelled at the call sites
that can actually pass `undefined` (see `mkEnvelope`). -/
structure Breakpoint where
  position : ℚ
  value : ℚ
deriving DecidableEq, Repr

/-- An envelope, src/index.js lines 32-34: a list of breakpoints plus a
default value (initialised to 0). -/
structure EnvelopeSignal where
  breakpoints : List Breakpoint
  defaultValue : ℚ
deriving DecidableEq, Repr

/-- src/index.js lines 8-10. -/
def lerp (value1 value2 factor : ℚ) : ℚ :=
  value1 * (1 - factor) + value2 * factor

/-- One iteration of the left-scan loop, src/index.js lines 54-59:
`if (breakpoint.position > left.position && breakpoint.position <= position)`.
`none` is the `-Infinity` sentinel, past which every finite position
compares. -/
def leftStep (q : ℚ) (left : Option Breakpoint) (bp : Breakpoint) : Option Breakpoint :=
  match left with
  | none => if bp.position ≤ q then some bp else none
  | some lb => if lb.position < bp.position ∧ bp.position ≤ q then some bp else some lb

/-- The left scan of `EnvelopeSignal.prototype.pick`, src/index.js
lines 53-59: the breakpoint with the greatest position `≤ q` (first
occurrence on a tie), or `none` when there is none. -/
def leftScan (l : List Breakpoint) (q : ℚ) : Option Breakpoint :=
  l.foldl (leftStep q) none

/-- One iteration of the right-scan loop of `EnvelopeSignal`,
src/index.js lines 63-68:
`if (breakpoint.position < right.position && breakpoint.position > position)`
(a STRICT comparison against the query). -/
def rightStep (q : ℚ) (right : Option Breakpoint) (bp : Breakpoint) : Option Breakpoint :=
  match right with
  | none => if q < bp.position then some bp else none
  | some rb => if bp.position < rb.position ∧ q < bp.position then some bp else some rb

/-- The right scan of `EnvelopeSignal.prototype.pick`, src/index.js
lines 62-68: the breakpoint with the smallest position strictly `> q`. -/
def rightScan (l : List Breakpoint) (q : ℚ) : Option Breakpoint :=
  l.foldl (rightStep q) none

/-- One iteration of the right-scan loop of `BreakpointEnvelope`,
src/index.js lines 268-273:
`if (breakpoint.position < right.position && breakpoint.position >= position)`
(an INCLUSIVE comparison against the query). -/
def rightStepIncl (q : ℚ) (right : Option Breakpoint) (bp : Breakpoint) : Option Breakpoint :=
  match right with
  | none => if q ≤ bp.position then some bp else none
  | some rb => if bp.position < rb.position ∧ q ≤ bp.position then some bp else some rb

/-- The right scan of `BreakpointEnvelope.prototype.pick`, src/index.js
lines 267-273: the breakpoint with the smallest position `≥ q`. -/
def rightScanIncl (l : List Breakpoint) (q : ℚ) : Option Breakpoint :=
  l.foldl (rightStepIncl q) none

/-- `EnvelopeSignal.prototype.pick`, src/index.js lines 51-76.
`left.position == -Infinity` is the `none` case of the left scan; the
sentinel right breakpoint carries `defaultValue`, hence the
`none, none => defaultValue` arm.  In the interpolation arm the scans
guarantee `left.position ≤ q < right.position`, so the denominator
`|right.position - left.position|` (the code's `Math.abs`) is positive
and the `ℚ` division is exactly the JS division (no `0/0`). -/
def pick (e : EnvelopeSignal) (q : ℚ) : ℚ :=
  match leftScan e.breakpoints q, rightScan e.breakpoints q with
  | none, none => e.defaultValue
  | none, some r => r.value
  | some l, none => l.value
  | some l, some r => lerp l.value r.value ((q - l.position) / |r.position - l.position|)

/-- `BreakpointEnvelope.prototype.pick`, src/index.js lines 256-280: same
as `pick` but with the inclusive right scan.  When the query equals a
breakpoint position both scans resolve to that breakpoint, the
denominator `Math.abs(right.position - left.position)` is `0`, and the JS
factor `0/0` is `NaN`, which propagates through the interpolation; a
non-finite result is modelled as `none` (with a zero denominator the JS
result is never a finite number). -/
def pickBE (e : EnvelopeSignal) (q : ℚ) : Option ℚ :=
  match leftScan e.breakpoints q, rightScanIncl e.breakpoints q with
  | none, none => some e.defaultValue
  | none, some r => some r.value
  | some l, none => some l.value
  | some l, some r =>
      if |r.position - l.position| = 0 then none
      else some (lerp l.value r.value ((q - l.position) / |r.position - l.position|))

/-- `EnvelopeSignal.prototype.breakpointExists`, src/index.js
lines 124-130. -/
def breakpointExists (e : EnvelopeSignal) (position : ℚ) : Bool :=
  e.breakpoints.any fun bp => bp.position == position

/-- `EnvelopeSignal.prototype.addBreakpoint`, src/index.js lines 84-95.
The omitted-`value` call `addBreakpoint(position)` is `value? = none`, in
which case the value is `pick position` on the current envelope (line 86).
The JS method returns `false` (modelled `none`) on a duplicate position
and the new `Breakpoint` (modelled `some`) otherwise; the first component
is the updated envelope (`this`). -/
def addBreakpoint (e : EnvelopeSignal) (position : ℚ) (value? : Option ℚ) :
    EnvelopeSignal × Option Breakpoint :=
  let value := value?.getD (pick e position)
  if breakpointExists e position then (e, none)
  else
    let newBreakpoint : Breakpoint := ⟨position, value⟩
    (⟨e.breakpoints ++ [newBreakpoint], e.defaultValue⟩, some newBreakpoint)

/-- The comparison relation of `sortBreakpoints`' comparator
`a.position - b.position` (ascending by position). -/
def posLe (a b : Breakpoint) : Prop := a.position ≤ b.position

instance : DecidableRel posLe := fun a b => inferInstanceAs (Decidable (a.position ≤ b.position))

instance : IsTotal Breakpoint posLe := ⟨fun a b => le_total a.position b.position⟩

instance : IsTrans Breakpoint posLe := ⟨fun _ _ _ h h' => le_trans h h'⟩

/-- `EnvelopeSignal.prototype.sortBreakpoints`, src/index.js
lines 136-142: sorts the breakpoint array ascending by position
(comparator `a.position - b.position`) and returns `this`.  Modelled with
the stable `List.insertionSort`; the breakpoint lists it is applied to
have pairwise-distinct positions, for which every stable sort produces
the same list as the JS sort. -/
def sortBreakpoints (e : EnvelopeSignal) : EnvelopeSignal :=
  ⟨e.breakpoints.insertionSort posLe, e.defaultValue⟩

/-- The value-supplied insertion loops shared by the constructor and the
algebra operations: `result.addBreakpoint(position, value)` folded over a
list of (position, value) pairs. -/
def insertAll (e : EnvelopeSignal) (l : List Breakpoint) : EnvelopeSignal :=
  l.foldl (fun acc bp => (addBreakpoint acc bp.position (some bp.value)).1) e

/-- The `EnvelopeSignal(breakpoints)` constructor, src/index.js
lines 32-45, applied to an array of `[position, value]` pairs: starts
empty with `defaultValue 0` and calls
`this.addBreakpoint(breakpoint[0], breakpoint[1])` on each pair. -/
def fromPairs (l : List (ℚ × ℚ)) : EnvelopeSignal :=
  insertAll ⟨[], 0⟩ (l.map fun pv => ⟨pv.1, pv.2⟩)

/-- A constructor entry: a `[position, value]` array or a
`{position, value}` record (src/index.js lines 29-30). -/
inductive InitEntry where
  | pair (position value : ℚ)
  | record (position value : ℚ)
deriving DecidableEq, Repr

/-- One constructor-loop iteration, src/index.js lines 38-43.  The loop
body indexes every entry as an array (`breakpoint[0]`, `breakpoint[1]` —
line 40 re-tests `breakpoints instanceof Array`, the OUTER array, not the
entry).  On a record entry `breakpoint[0]` and `breakpoint[1]` are
`undefined`, so `addBreakpoint(undefined, undefined)` computes
`value = this.pick(undefined)` (every comparison against `undefined` is
false, so both scans keep their sentinels and `defaultValue = 0` is
returned), finds `breakpointExists(undefined)` false, and then
`new Breakpoint(undefined, 0)` throws
`Error('Parameter position required')` (line 19).  The thrown exception
is modelled as `none`. -/
def initStep (e : EnvelopeSignal) : InitEntry → Option EnvelopeSignal
  | .pair p v => some (addBreakpoint e p (some v)).1
  | .record _ _ => none

/-- The `EnvelopeSignal(breakpoints)` constructor on a mixed entry list;
`none` models a thrown exception. -/
def mkEnvelope (entries : List InitEntry) : Option EnvelopeSignal :=
  entries.foldlM initStep ⟨[], 0⟩

/-- The `manipulator` argument of the algebra methods: a number or an
envelope (the two `typeof` / `instanceof` branches). -/
inductive Manip where
  | num (k : ℚ)
  | env (e : EnvelopeSignal)

/-- `EnvelopeSignal.prototype.add`, src/index.js lines 150-174:
`result = new EnvelopeSignal()`; scalar branch inserts every breakpoint
with its value shifted; envelope branch first inserts `this`'s
breakpoints with `manipulator.pick` added, then `manipulator`'s
breakpoints with `this.pick` added (duplicate positions fail silently in
`addBreakpoint`, so the first pass wins); finally
`result.sortBreakpoints()`.  (The `thisAdded` / `manipulatorAdded`
locals of the source are created and never used; they are dead code and
are not modelled.) -/
def EnvelopeSignal.add (a : EnvelopeSignal) : Manip → EnvelopeSignal
  | .num k =>
      sortBreakpoints (insertAll ⟨[], 0⟩
        (a.breakpoints.map fun bp => ⟨bp.position, bp.value + k⟩))
  | .env b =>
      sortBreakpoints (insertAll
        (insertAll ⟨[], 0⟩
          (a.breakpoints.map fun bp => ⟨bp.position, bp.value + pick b bp.position⟩))
        (b.breakpoints.map fun bp => ⟨bp.position, bp.value + pick a bp.position⟩))

/-- `EnvelopeSignal.prototype.multiply`, src/index.js lines 182-191:
scalar branch only; a non-number manipulator leaves the fresh result
empty.  Note: unlike `add`, the result is NOT sorted. -/
def EnvelopeSignal.multiply (a : EnvelopeSignal) : Manip → EnvelopeSignal
  | .num k =>
      insertAll ⟨[], 0⟩ (a.breakpoints.map fun bp => ⟨bp.position, bp.value * k⟩)
  | .env _ => ⟨[], 0⟩

mutual

/-- `EnvelopeSignal.prototype.subtract`, src/index.js lines 212-218:
`add(-k)` for a number, `add(manipulator.invert())` for an envelope. -/
def EnvelopeSignal.subtract (a : EnvelopeSignal) : Manip → EnvelopeSignal
  | .num k => a.add (.num (-k))
  | .env b => a.add (.env (b.invert none))
termination_by m => match m with | .num _ => 1 | .env _ => 3

/-- `EnvelopeSignal.prototype.invert`, src/index.js lines 198-204:
`subtract(origin).multiply(-1).add(origin)` with a numeric origin,
`multiply(-1)` without one. -/
def EnvelopeSignal.invert (a : EnvelopeSignal) : Option ℚ → EnvelopeSignal
  | some origin => ((a.subtract (.num origin)).multiply (.num (-1))).add (.num origin)
  | none => a.multiply (.num (-1))
termination_by o => match o with | some _ => 2 | none => 0

end

/-- JS `Array.prototype.splice(1, deleteCount)` as used (erroneously, in
place of `splice(index, 1)`) by `deleteBreakpoint`, src/index.js
lines 105 and 111: the start index is the literal `1` (clamped to the
array length), and `deleteCount` elements (clamped to `[0, len - start]`)
are removed from there. -/
def spliceAt1 (l : List Breakpoint) (deleteCount : ℤ) : List Breakpoint :=
  let s := min 1 l.length
  let d := (min (max deleteCount 0) ((l.length : ℤ) - s)).toNat
  l.take s ++ l.drop (s + d)

/-- The argument of `deleteBreakpoint`: a numeric index or a breakpoint
object. -/
inductive DeleteArg where
  | index (n : ℤ)
  | ref (bp : Breakpoint)

/-- JS `Array.prototype.indexOf`: index of the first occurrence, `-1`
when absent. -/
def jsIndexOf (l : List Breakpoint) (bp : Breakpoint) : ℤ :=
  match l.findIdx? (fun x => x == bp) with
  | some i => (i : ℤ)
  | none => -1

/-- `EnvelopeSignal.prototype.deleteBreakpoint`, src/index.js
lines 103-117: for a numeric argument it runs
`this.breakpoints.splice(1, breakpoint)` and returns `true`; for an
object argument it runs
`this.breakpoints.splice(1, this.breakpoints.indexOf(breakpoint))` and
returns `true`. -/
def deleteBreakpoint (e : EnvelopeSignal) : DeleteArg → EnvelopeSignal × Bool
  | .index n => (⟨spliceAt1 e.breakpoints n, e.defaultValue⟩, true)
  | .ref bp => (⟨spliceAt1 e.breakpoints (jsIndexOf e.breakpoints bp), e.defaultValue⟩, true)

/-- The value stored at an exact position: the first breakpoint whose
position equals `p` (unique on envelopes with distinct positions). -/
def valueAt (e : EnvelopeSignal) (p : ℚ) : Option ℚ :=
  (e.breakpoints.find? fun bp => bp.position == p).map Breakpoint.value

/-- The distinct-positions invariant of §3 of the spec. -/
def nodupPositions (e : EnvelopeSignal) : Prop :=
  (e.breakpoints.map Breakpoint.position).Nodup

instance (e : EnvelopeSignal) : Decidable (nodupPositions e) :=
  inferInstanceAs (Decidable (List.Nodup _))

/-- The test envelope `A = [[0,0],[1,1],[2,1],[4,0]]` of
src/test/test1.js. -/
def envA : EnvelopeSignal := fromPairs [(0, 0), (1, 1), (2, 1), (4, 0)]

/-- The test envelope `B = [[1,0],[3,1],[5,0]]` of src/test/test1.js. -/
def envB : EnvelopeSignal := fromPairs [(1, 0), (3, 1), (5, 0)]

/-- The `pick` contract exactly as claim C1 / spec section 4.1 word it
(the spec-side definition of the refinement): `left` is the breakpoint
with the greatest position `≤ q`, `right` the one with the smallest
position `≥ q` (INCLUSIVE, unlike the code's strict right scan); with no
`left`, the `right` value (or the default value with no breakpoints at
all); with no `right`, the `left` value; otherwise
`left.value*(1-factor) + right.value*factor` with
`factor = (q - left.position)/(right.position - left.position)`.  In `ℚ`
a division by zero yields `0`, so at an exact breakpoint position (where
`left = right` and the quotient is `0/0`) the factor reads as `0` — the
factor-0 convention the spec mandates for exact-position queries. -/
def pickSpec (e : EnvelopeSignal) (q : ℚ) : ℚ :=
  match leftScan e.breakpoints q, rightScanIncl e.breakpoints q with
  | none, none => e.defaultValue
  | none, some r => r.value
  | some l, none => l.value
  | some l, some r => lerp l.value r.value ((q - l.position) / (r.position - l.position))

/-- Specification of the insertion loops: keep each breakpoint whose
position has not been seen yet (neither in `seen` nor earlier in the
list), in order — first occurrence wins, exactly the effect of
`addBreakpoint`'s silent duplicate failure. -/
def keepNew (seen : List ℚ) : List Breakpoint → List Breakpoint
  | [] => []
  | bp :: l =>
      if bp.position ∈ seen then keepNew seen l
      else bp :: keepNew (bp.position :: seen) l

/-- The envelopes reachable through the public API: construction (from
pairs, or from any entry list that does not throw), breakpoint
insertion/deletion, sorting, and the algebra operations. -/
inductive Reachable : EnvelopeSignal → Prop where
  | ofPairs (l : List (ℚ × ℚ)) : Reachable (fromPairs l)
  | ofMk (entries : List InitEntry) (e : EnvelopeSignal) :
      mkEnvelope entries = some e → Reachable e
  | addBp (e : EnvelopeSignal) (p : ℚ) (v? : Option ℚ) :
      Reachable e → Reachable (addBreakpoint e p v?).1
  | delBp (e : EnvelopeSignal) (arg : DeleteArg) :
      Reachable e → Reachable (deleteBreakpoint e arg).1
  | sortBp (e : EnvelopeSignal) : Reachable e → Reachable (sortBreakpoints e)
  | addOp (e : EnvelopeSignal) (m : Manip) : Reachable e → Reachable (e.add m)
  | subOp (e : EnvelopeSignal) (m : Manip) : Reachable e → Reachable (e.subtract m)
  | mulOp (e : EnvelopeSignal) (m : Manip) : Reachable e → Reachable (e.multiply m)
  | invOp (e : EnvelopeSignal) (o : Option ℚ) : Reachable e → Reachable (e.invert o)

/-!  A heap model for the mutation claims (C8): JS objects live in a
store; a method call reads its receiver from the store and writes back
only the objects it mutates.  References are indices into the store;
`new EnvelopeSignal()` appends a fresh empty envelope. -/

/-- The heap: envelope objects addressed by allocation index. -/
abbrev Store : Type := List EnvelopeSignal

/-- Dereference (a dangling reference reads as an empty envelope; the
theorems only use valid references). -/
def getE (store : Store) (r : Nat) : EnvelopeSignal :=
  List.getD store r ⟨[], 0⟩

/-- Store-level `addBreakpoint`: mutates only the receiver. -/
def addBreakpointS (store : Store) (r : Nat) (p : ℚ) (v? : Option ℚ) :
    Store × Option Breakpoint :=
  let res := addBreakpoint (getE store r) p v?
  (List.set store r res.1, res.2)

/-- Store-level `sortBreakpoints`: sorts the receiver in place
(`Array.prototype.sort` mutates) and returns `this` (the receiver's
reference), src/index.js lines 136-142. -/
def sortBreakpointsS (store : Store) (r : Nat) : Store × Nat :=
  (List.set store r (sortBreakpoints (getE store r)), r)

/-- Store-level `pick`: reads, never writes. -/
def pickS (store : Store) (r : Nat) (q : ℚ) : ℚ :=
  pick (getE store r) q

/-- A manipulator at store level: a number or a reference to an envelope
object (JS passes objects by reference). -/
inductive ManipS where
  | num (k : ℚ)
  | env (r : Nat)

/-- One pass of `add`'s insertion loop over a breakpoint snapshot,
writing into the result object `rres` with values computed from the
current store.  (The receiver and manipulator are distinct objects from
the freshly allocated result, so iterating over a snapshot of their
`breakpoints` arrays is exact.) -/
def insertLoopS (rres : Nat) (g : Store → Breakpoint → ℚ) (l : List Breakpoint)
    (store : Store) : Store :=
  l.foldl (fun st bp => (addBreakpointS st rres bp.position (some (g st bp))).1) store

/-- Store-level `EnvelopeSignal.prototype.add`, src/index.js
lines 150-174: allocate `result = new EnvelopeSignal()`, run the
insertion pass(es) writing into it, then `result.sortBreakpoints()`. -/
def addS (store : Store) (self : Nat) (m : ManipS) : Store × Nat :=
  let store1 := store ++ [⟨[], 0⟩]
  let rres := store.length
  match m with
  | .num k =>
      let store2 := insertLoopS rres (fun _ bp => bp.value + k)
        (getE store1 self).breakpoints store1
      sortBreakpointsS store2 rres
  | .env rm =>
      let store2 := insertLoopS rres (fun st bp => bp.value + pickS st rm bp.position)
        (getE store1 self).breakpoints store1
      let store3 := insertLoopS rres (fun st bp => bp.value + pickS st self bp.position)
        (getE store2 rm).breakpoints store2
      sortBreakpointsS store3 rres

/-- Store-level `EnvelopeSignal.prototype.multiply`, src/index.js
lines 182-191 (result not sorted; non-number manipulator leaves the
fresh result empty). -/
def multiplyS (store : Store) (self : Nat) (m : ManipS) : Store × Nat :=
  let store1 := store ++ [⟨[], 0⟩]
  let rres := store.length
  match m with
  | .num k =>
      (insertLoopS rres (fun _ bp => bp.value * k) (getE store1 self).breakpoints store1, rres)
  | .env _ => (store1, rres)

mutual

/-- Store-level `EnvelopeSignal.prototype.subtract`, src/index.js
lines 212-218. -/
def subtractS (store : Store) (self : Nat) : ManipS → Store × Nat
  | .num k => addS store self (.num (-k))
  | .env rm =>
      let inv := invertS store rm none
      addS inv.1 self (.env inv.2)
termination_by m => match m with | .num _ => 1 | .env _ => 3

/-- Store-level `EnvelopeSignal.prototype.invert`, src/index.js
lines 198-204. -/
def invertS (store : Store) (self : Nat) : Option ℚ → Store × Nat
  | some origin =>
      let s1 := subtractS store self (.num origin)
      let s2 := multiplyS s1.1 s1.2 (.num (-1))
      addS s2.1 s2.2 (.num origin)
  | none => multiplyS store self (.num (-1))
termination_by o => match o with | some _ => 2 | none => 0

end

/-!  Characterisation of the left/right scans of `pick`. -/

/-- A run of the left-scan loop that ends in the sentinel started from the
sentinel and saw no breakpoint with position `≤ q`. -/
lemma foldl_leftStep_eq_none (q : ℚ) :
    ∀ (l : List Breakpoint) (acc : Option Breakpoint),
      l.foldl (leftStep q) acc = none ↔ acc = none ∧ ∀ bp ∈ l, q < bp.position := by
  intro l
  induction l with
  | nil => intro acc; simp
  | cons bp l ih =>
    intro acc
    rw [List.foldl_cons, ih]
    constructor
    · rintro ⟨hstep, hall⟩
      cases acc with
      | none =>
        refine ⟨rfl, ?_⟩
        intro x hx
        rcases List.mem_cons.mp hx with rfl | hx
        · by_contra hle
          push_neg at hle
          simp [leftStep, hle] at hstep
        · exact hall x hx
      | some lb =>
        exfalso
        simp only [leftStep] at hstep
        split_ifs at hstep
    · rintro ⟨rfl, hall⟩
      have hbp : ¬ bp.position ≤ q := not_le.mpr (hall bp (List.mem_cons_self bp l))
      exact ⟨by simp [leftStep, hbp], fun x hx => hall x (List.mem_cons_of_mem bp hx)⟩

/-- A run of the left-scan loop that ends in `some res` ends in a
breakpoint of the list (or in the accumulator it started from) whose
position is `≤ q` and is greatest among those (ties resolved to the first
occurrence, which both the code and this lemma leave unconstrained). -/
lemma foldl_leftStep_eq_some (q : ℚ) :
    ∀ (l : List Breakpoint) (acc : Option Breakpoint) (res : Breakpoint),
      (∀ lb, acc = some lb → lb.position ≤ q) →
      l.foldl (leftStep q) acc = some res →
      (res ∈ l ∨ acc = some res) ∧ res.position ≤ q ∧
        (∀ bp ∈ l, bp.position ≤ q → bp.position ≤ res.position) ∧
        (∀ lb, acc = some lb → lb.position ≤ res.position) := by
  intro l
  induction l with
  | nil =>
    intro acc res hacc h
    simp only [List.foldl_nil] at h
    subst h
    exact ⟨Or.inr rfl, hacc res rfl, by simp, fun lb hlb => by rw [Option.some_inj.mp hlb]⟩
  | cons bp l ih =>
    intro acc res hacc h
    rw [List.foldl_cons] at h
    have hacc' : ∀ lb, leftStep q acc bp = some lb → lb.position ≤ q := by
      intro lb hlb
      cases acc with
      | none =>
        simp only [leftStep] at hlb
        split_ifs at hlb with hc
        · cases hlb; exact hc
      | some a =>
        simp only [leftStep] at hlb
        split_ifs at hlb with hc
        · cases hlb; exact hc.2
        · cases hlb; exact hacc lb rfl
    obtain ⟨hmem, hle, hmax, haccle⟩ := ih (leftStep q acc bp) res hacc' h
    refine ⟨?_, hle, ?_, ?_⟩
    · rcases hmem with hmem | hmem
      · exact Or.inl (List.mem_cons_of_mem bp hmem)
      · cases acc with
        | none =>
          simp only [leftStep] at hmem
          split_ifs at hmem with hc
          · exact Or.inl (List.mem_cons.mpr (Or.inl (Option.some_inj.mp hmem).symm))
        | some a =>
          simp only [leftStep] at hmem
          split_ifs at hmem with hc
          · exact Or.inl (List.mem_cons.mpr (Or.inl (Option.some_inj.mp hmem).symm))
          · exact Or.inr hmem
    · intro x hx hxle
      rcases List.mem_cons.mp hx with rfl | hx
      · cases acc with
        | none =>
          have : leftStep q none x = some x := by simp [leftStep, hxle]
          exact haccle x (this ▸ rfl)
        | some a =>
          by_cases hc : a.position < x.position ∧ x.position ≤ q
          · have : leftStep q (some a) x = some x := by simp [leftStep, hc]
            exact haccle x this
          · have hax : ¬ a.position < x.position := by
              intro hlt; exact hc ⟨hlt, hxle⟩
            have : leftStep q (some a) x = some a := by simp [leftStep, hc]
            exact le_trans (not_lt.mp hax) (haccle a this)
      · exact hmax x hx hxle
    · intro lb hlb
      subst hlb
      cases hs : leftStep q (some lb) bp with
      | none => exfalso; simp only [leftStep] at hs; split_ifs at hs
      | some x =>
        have hx := haccle x hs
        simp only [leftStep] at hs
        split_ifs at hs with hc
        · cases hs; exact le_trans (le_of_lt hc.1) hx
        · cases hs; exact hx

/-- The left scan selects a breakpoint of the list with the greatest
position `≤ q`. -/
lemma leftScan_eq_some (l : List Breakpoint) (q : ℚ) (res : Breakpoint)
    (h : leftScan l q = some res) :
    res ∈ l ∧ res.position ≤ q ∧ ∀ bp ∈ l, bp.position ≤ q → bp.position ≤ res.position := by
  obtain ⟨hmem, hle, hmax, _⟩ := foldl_leftStep_eq_some q l none res (by simp) h
  exact ⟨hmem.resolve_right (by simp), hle, hmax⟩

/-- A non-sentinel result of the inclusive right scan has position `≥ q`. -/
lemma foldl_rightStepIncl_some_le (q : ℚ) :
    ∀ (l : List Breakpoint) (acc : Option Breakpoint) (res : Breakpoint),
      (∀ rb, acc = some rb → q ≤ rb.position) →
      l.foldl (rightStepIncl q) acc = some res → q ≤ res.position := by
  intro l
  induction l with
  | nil =>
    intro acc res hacc h
    simp only [List.foldl_nil] at h
    exact hacc res h
  | cons bp l ih =>
    intro acc res hacc h
    rw [List.foldl_cons] at h
    refine ih (rightStepIncl q acc bp) res ?_ h
    intro rb hrb
    cases acc with
    | none =>
      simp only [rightStepIncl] at hrb
      split_ifs at hrb with hc
      · cases hrb; exact hc
    | some a =>
      simp only [rightStepIncl] at hrb
      split_ifs at hrb with hc
      · cases hrb; exact hc.2
      · cases hrb; exact hacc rb rfl

/-- When no breakpoint sits exactly at the query, the strict and the
inclusive right scans coincide. -/
lemma foldl_rightStep_eq_incl (q : ℚ) :
    ∀ (l : List Breakpoint), (∀ bp ∈ l, bp.position ≠ q) →
      ∀ acc, l.foldl (rightStep q) acc = l.foldl (rightStepIncl q) acc := by
  intro l
  induction l with
  | nil => intro _ acc; rfl
  | cons bp l ih =>
    intro hne acc
    have hbp : bp.position ≠ q := hne bp (List.mem_cons_self bp l)
    have hiff : q < bp.position ↔ q ≤ bp.position :=
      ⟨le_of_lt, fun h => lt_of_le_of_ne h (Ne.symm hbp)⟩
    have hstep : rightStep q acc bp = rightStepIncl q acc bp := by
      cases acc with
      | none => simp only [rightStep, rightStepIncl, hiff]
      | some a => simp only [rightStep, rightStepIncl, hiff]
    rw [List.foldl_cons, List.foldl_cons, hstep,
      ih (fun x hx => hne x (List.mem_cons_of_mem bp hx))]

/-- The two-phase agreement lemma: once a breakpoint at exactly the query
position has been scanned, both the left scan and the inclusive right
scan hold it and never let it go. -/
lemma foldl_steps_absorb (q : ℚ) (b0 : Breakpoint) (hb0 : b0.position = q) :
    ∀ (l : List Breakpoint),
      l.foldl (leftStep q) (some b0) = some b0 ∧
      l.foldl (rightStepIncl q) (some b0) = some b0 := by
  intro l
  induction l with
  | nil => exact ⟨rfl, rfl⟩
  | cons bp l ih =>
    have hleft : leftStep q (some b0) bp = some b0 := by
      have : ¬ (b0.position < bp.position ∧ bp.position ≤ q) := by
        rintro ⟨hlt, hle⟩
        rw [hb0] at hlt
        exact absurd hle (not_le.mpr hlt)
      simp [leftStep, this]
    have hright : rightStepIncl q (some b0) bp = some b0 := by
      have : ¬ (bp.position < b0.position ∧ q ≤ bp.position) := by
        rintro ⟨hlt, hle⟩
        rw [hb0] at hlt
        exact absurd hle (not_le.mpr hlt)
      simp [rightStepIncl, this]
    rw [List.foldl_cons, List.foldl_cons, hleft, hright]
    exact ih

/-- When some breakpoint sits exactly at the query position, the left
scan and the inclusive right scan agree on a single breakpoint at that
position (the first such occurrence). -/
lemma scans_at_exact (q : ℚ) :
    ∀ (l : List Breakpoint) (accL accR : Option Breakpoint),
      (∀ a, accL = some a → a.position < q) →
      (∀ r, accR = some r → q < r.position) →
      (∃ bp ∈ l, bp.position = q) →
      ∃ b0, b0.position = q ∧ l.foldl (leftStep q) accL = some b0 ∧
        l.foldl (rightStepIncl q) accR = some b0 := by
  intro l
  induction l with
  | nil =>
    intro _ _ _ _ hex
    simp at hex
  | cons bp l ih =>
    intro accL accR hL hR hex
    by_cases hbp : bp.position = q
    · have hleft : leftStep q accL bp = some bp := by
        cases accL with
        | none => simp [leftStep, hbp.le]
        | some a =>
          have := hL a rfl
          simp [leftStep, hbp ▸ this, hbp.le]
      have hright : rightStepIncl q accR bp = some bp := by
        cases accR with
        | none => simp [rightStepIncl, hbp.ge]
        | some r =>
          have := hR r rfl
          simp [rightStepIncl, hbp ▸ this, hbp.ge]
      obtain ⟨habsL, habsR⟩ := foldl_steps_absorb q bp hbp l
      exact ⟨bp, hbp, by rw [List.foldl_cons, hleft]; exact habsL,
        by rw [List.foldl_cons, hright]; exact habsR⟩
    · have hex' : ∃ x ∈ l, x.position = q := by
        rcases hex with ⟨x, hx, hxq⟩
        rcases List.mem_cons.mp hx with rfl | hx
        · exact absurd hxq hbp
        · exact ⟨x, hx, hxq⟩
      rw [List.foldl_cons, List.foldl_cons]
      refine ih (leftStep q accL bp) (rightStepIncl q accR bp) ?_ ?_ hex'
      · intro a ha
        cases accL with
        | none =>
          simp only [leftStep] at ha
          split_ifs at ha with hc
          · cases ha; exact lt_of_le_of_ne hc hbp
        | some a0 =>
          simp only [leftStep] at ha
          split_ifs at ha with hc
          · cases ha; exact lt_of_le_of_ne hc.2 hbp
          · cases ha; exact hL a rfl
      · intro r hr
        cases accR with
        | none =>
          simp only [rightStepIncl] at hr
          split_ifs at hr with hc
          · cases hr; exact lt_of_le_of_ne hc (Ne.symm hbp)
        | some r0 =>
          simp only [rightStepIncl] at hr
          split_ifs at hr with hc
          · cases hr; exact lt_of_le_of_ne hc.2 (Ne.symm hbp)
          · cases hr; exact hR r rfl


/-!  Elementary facts about `lerp`, `breakpointExists` and
`addBreakpoint`. -/

lemma lerp_zero (x y : ℚ) : lerp x y 0 = x := by
  simp [lerp]

lemma breakpointExists_iff (e : EnvelopeSignal) (p : ℚ) :
    breakpointExists e p = true ↔ p ∈ e.breakpoints.map Breakpoint.position := by
  simp [breakpointExists, List.any_eq_true, List.mem_map]

lemma addBreakpoint_of_mem (e : EnvelopeSignal) (p : ℚ) (v? : Option ℚ)
    (h : p ∈ e.breakpoints.map Breakpoint.position) :
    (addBreakpoint e p v?).1 = e := by
  simp [addBreakpoint, (breakpointExists_iff e p).mpr h]

lemma addBreakpoint_of_not_mem (e : EnvelopeSignal) (p : ℚ) (v : ℚ)
    (h : p ∉ e.breakpoints.map Breakpoint.position) :
    (addBreakpoint e p (some v)).1 =
      ⟨e.breakpoints ++ [⟨p, v⟩], e.defaultValue⟩ := by
  have : ¬ breakpointExists e p = true := fun hx => h ((breakpointExists_iff e p).mp hx)
  simp [addBreakpoint, this]

/-!  The insertion loops: `insertAll` appends exactly the
first-occurrence-new breakpoints (`keepNew`). -/

lemma keepNew_congr : ∀ (l : List Breakpoint) (s t : List ℚ),
    (∀ x ∈ l.map Breakpoint.position, (x ∈ s ↔ x ∈ t)) → keepNew s l = keepNew t l := by
  intro l
  induction l with
  | nil => intro s t _; rfl
  | cons bp l ih =>
    intro s t h
    have hbp := h bp.position (List.mem_map_of_mem Breakpoint.position (List.mem_cons_self bp l))
    have htail : ∀ x ∈ l.map Breakpoint.position, (x ∈ s ↔ x ∈ t) := fun x hx =>
      h x (by rw [List.map_cons]; exact List.mem_cons_of_mem _ hx)
    by_cases hs : bp.position ∈ s
    · rw [keepNew, keepNew, if_pos hs, if_pos (hbp.mp hs)]
      exact ih s t htail
    · have ht : bp.position ∉ t := fun hx => hs (hbp.mpr hx)
      rw [keepNew, keepNew, if_neg hs, if_neg ht]
      refine congrArg _ (ih _ _ ?_)
      intro x hx
      rw [List.mem_cons, List.mem_cons, htail x hx]

lemma keepNew_irrel (l : List Breakpoint) (s : List ℚ) (p : ℚ)
    (h : p ∉ l.map Breakpoint.position) : keepNew (p :: s) l = keepNew s l := by
  refine keepNew_congr l _ _ ?_
  intro x hx
  have : x ≠ p := fun hxp => h (hxp ▸ hx)
  simp [List.mem_cons, this]

lemma mem_map_keepNew : ∀ (l : List Breakpoint) (s : List ℚ) (p : ℚ),
    p ∈ (keepNew s l).map Breakpoint.position ↔
      p ∉ s ∧ p ∈ l.map Breakpoint.position := by
  intro l
  induction l with
  | nil => intro s p; simp [keepNew]
  | cons bp l ih =>
    intro s p
    by_cases hs : bp.position ∈ s
    · rw [keepNew, if_pos hs, ih]
      constructor
      · rintro ⟨hps, hpl⟩
        exact ⟨hps, by rw [List.map_cons]; exact List.mem_cons_of_mem _ hpl⟩
      · rintro ⟨hps, hpl⟩
        rw [List.map_cons, List.mem_cons] at hpl
        rcases hpl with rfl | hpl
        · exact absurd hs hps
        · exact ⟨hps, hpl⟩
    · rw [keepNew, if_neg hs, List.map_cons, List.mem_cons, ih]
      constructor
      · rintro (rfl | ⟨hpc, hpl⟩)
        · exact ⟨hs, by rw [List.map_cons]; exact List.mem_cons_self _ _⟩
        · exact ⟨fun hx => hpc (List.mem_cons_of_mem _ hx),
            by rw [List.map_cons]; exact List.mem_cons_of_mem _ hpl⟩
      · rintro ⟨hps, hpl⟩
        rw [List.map_cons, List.mem_cons] at hpl
        rcases hpl with rfl | hpl
        · exact Or.inl rfl
        · by_cases hpb : p = bp.position
          · exact Or.inl hpb
          · exact Or.inr ⟨by simp [List.mem_cons, hpb, hps], hpl⟩

lemma nodup_map_keepNew : ∀ (l : List Breakpoint) (s : List ℚ),
    ((keepNew s l).map Breakpoint.position).Nodup := by
  intro l
  induction l with
  | nil => intro s; simp [keepNew]
  | cons bp l ih =>
    intro s
    by_cases hs : bp.position ∈ s
    · rw [keepNew, if_pos hs]; exact ih s
    · rw [keepNew, if_neg hs, List.map_cons, List.nodup_cons]
      refine ⟨fun hx => ?_, ih _⟩
      exact ((mem_map_keepNew l _ _).mp hx).1 (List.mem_cons_self _ _)

lemma keepNew_eq_filter : ∀ (l : List Breakpoint),
    (l.map Breakpoint.position).Nodup → ∀ s : List ℚ,
      keepNew s l = l.filter fun bp => decide (bp.position ∉ s) := by
  intro l
  induction l with
  | nil => intro _ s; rfl
  | cons bp l ih =>
    intro hnd s
    rw [List.map_cons, List.nodup_cons] at hnd
    by_cases hs : bp.position ∈ s
    · rw [keepNew, if_pos hs, List.filter_cons_of_neg (by simp [hs]), ih hnd.2]
    · rw [keepNew, if_neg hs, List.filter_cons_of_pos (by simp [hs]),
        keepNew_irrel l s bp.position hnd.1, ih hnd.2]

lemma find?_keepNew : ∀ (l : List Breakpoint) (s : List ℚ) (p : ℚ), p ∉ s →
    (keepNew s l).find? (fun bp => bp.position == p) =
      l.find? (fun bp => bp.position == p) := by
  intro l
  induction l with
  | nil => intro s p _; rfl
  | cons bp l ih =>
    intro s p hp
    by_cases hbp : bp.position = p
    · have hs : bp.position ∉ s := hbp ▸ hp
      rw [keepNew, if_neg hs,
        List.find?_cons_of_pos (p := fun b : Breakpoint => b.position == p) _ (by simp [hbp]),
        List.find?_cons_of_pos (p := fun b : Breakpoint => b.position == p) _ (by simp [hbp])]
    · have hpred : ¬ ((fun b : Breakpoint => b.position == p) bp) = true := by simp [hbp]
      by_cases hs : bp.position ∈ s
      · rw [keepNew, if_pos hs, ih s p hp,
          List.find?_cons_of_neg (p := fun b : Breakpoint => b.position == p) _ hpred]
      · rw [keepNew, if_neg hs,
          List.find?_cons_of_neg (p := fun b : Breakpoint => b.position == p) _ hpred,
          List.find?_cons_of_neg (p := fun b : Breakpoint => b.position == p) _ hpred]
        exact ih _ p (by
          simp only [List.mem_cons, not_or]
          exact ⟨fun h => hbp h.symm, hp⟩)

lemma insertAll_breakpoints : ∀ (l : List Breakpoint) (e : EnvelopeSignal),
    (insertAll e l).breakpoints =
      e.breakpoints ++ keepNew (e.breakpoints.map Breakpoint.position) l := by
  intro l
  induction l with
  | nil => intro e; simp [insertAll, keepNew]
  | cons bp l ih =>
    intro e
    have hstep : insertAll e (bp :: l) = insertAll (addBreakpoint e bp.position (some bp.value)).1 l := rfl
    by_cases hmem : bp.position ∈ e.breakpoints.map Breakpoint.position
    · rw [hstep, addBreakpoint_of_mem e _ _ hmem, ih, keepNew, if_pos hmem]
    · rw [hstep, addBreakpoint_of_not_mem e _ _ hmem, ih, keepNew, if_neg hmem]
      simp only [List.map_append, List.map_cons, List.map_nil, List.append_assoc,
        List.singleton_append, List.cons_append]
      refine congrArg _ (congrArg _ ?_)
      refine keepNew_congr l _ _ ?_
      intro x _
      simp [List.mem_append, List.mem_cons, or_comm]

lemma insertAll_defaultValue : ∀ (l : List Breakpoint) (e : EnvelopeSignal),
    (insertAll e l).defaultValue = e.defaultValue := by
  intro l
  induction l with
  | nil => intro e; rfl
  | cons bp l ih =>
    intro e
    have hstep : insertAll e (bp :: l) = insertAll (addBreakpoint e bp.position (some bp.value)).1 l := rfl
    rw [hstep, ih]
    simp only [addBreakpoint]
    split <;> rfl

lemma insertAll_empty_of_nodup (l : List Breakpoint)
    (h : (l.map Breakpoint.position).Nodup) :
    (insertAll ⟨[], 0⟩ l).breakpoints = l := by
  rw [insertAll_breakpoints]
  simp [keepNew_eq_filter l h]

/-!  Preservation of the distinct-positions invariant. -/

lemma nodupPositions_insertAll (e : EnvelopeSignal) (l : List Breakpoint)
    (h : nodupPositions e) : nodupPositions (insertAll e l) := by
  unfold nodupPositions at h ⊢
  rw [insertAll_breakpoints, List.map_append]
  refine List.Nodup.append h (nodup_map_keepNew l _) ?_
  intro p hp hp'
  exact ((mem_map_keepNew l _ p).mp hp').1 hp

lemma nodupPositions_addBreakpoint (e : EnvelopeSignal) (p : ℚ) (v? : Option ℚ)
    (h : nodupPositions e) : nodupPositions (addBreakpoint e p v?).1 := by
  by_cases hex : breakpointExists e p = true
  · simpa [addBreakpoint, hex] using h
  · unfold nodupPositions at h ⊢
    simp only [addBreakpoint, hex, if_false, Bool.false_eq_true]
    rw [List.map_append]
    refine List.Nodup.append h (by simp) ?_
    intro x hx hx'
    simp only [List.map_cons, List.map_nil, List.mem_singleton] at hx'
    subst hx'
    exact hex ((breakpointExists_iff e x).mpr hx)

lemma spliceAt1_sublist (l : List Breakpoint) (dc : ℤ) :
    List.Sublist (spliceAt1 l dc) l := by
  unfold spliceAt1
  have hdrop := List.drop_sublist_drop_left l
    (Nat.le_add_right (min 1 l.length)
      ((min (max dc 0) ((l.length : ℤ) - min 1 l.length)).toNat))
  have h2 := List.Sublist.append_left hdrop (l.take (min 1 l.length))
  rwa [List.take_append_drop] at h2

lemma nodupPositions_deleteBreakpoint (e : EnvelopeSignal) (arg : DeleteArg)
    (h : nodupPositions e) : nodupPositions (deleteBreakpoint e arg).1 := by
  have key : ∀ dc : ℤ, ((spliceAt1 e.breakpoints dc).map Breakpoint.position).Nodup :=
    fun dc => List.Nodup.sublist (List.Sublist.map _ (spliceAt1_sublist _ dc)) h
  cases arg with
  | index n => exact key n
  | ref bp => exact key _

lemma nodupPositions_sortBreakpoints (e : EnvelopeSignal)
    (h : nodupPositions e) : nodupPositions (sortBreakpoints e) := by
  unfold nodupPositions at h ⊢
  have hperm : List.Perm (e.breakpoints.insertionSort posLe) e.breakpoints :=
    List.perm_insertionSort posLe e.breakpoints
  exact ((hperm.map Breakpoint.position).nodup_iff).mpr h

lemma nodupPositions_add (a : EnvelopeSignal) (m : Manip) :
    nodupPositions (a.add m) := by
  have hbase : nodupPositions (⟨[], 0⟩ : EnvelopeSignal) := by simp [nodupPositions]
  cases m with
  | num k =>
      exact nodupPositions_sortBreakpoints _ (nodupPositions_insertAll _ _ hbase)
  | env b =>
      exact nodupPositions_sortBreakpoints _
        (nodupPositions_insertAll _ _ (nodupPositions_insertAll _ _ hbase))

lemma nodupPositions_multiply (a : EnvelopeSignal) (m : Manip) :
    nodupPositions (a.multiply m) := by
  have hbase : nodupPositions (⟨[], 0⟩ : EnvelopeSignal) := by simp [nodupPositions]
  cases m with
  | num k => exact nodupPositions_insertAll _ _ hbase
  | env b => exact hbase

lemma nodupPositions_subtract (a : EnvelopeSignal) (m : Manip) :
    nodupPositions (a.subtract m) := by
  cases m with
  | num k => rw [EnvelopeSignal.subtract]; exact nodupPositions_add a _
  | env b => rw [EnvelopeSignal.subtract]; exact nodupPositions_add a _

lemma nodupPositions_invert (a : EnvelopeSignal) (o : Option ℚ) :
    nodupPositions (a.invert o) := by
  cases o with
  | some origin => rw [EnvelopeSignal.invert]; exact nodupPositions_add _ _
  | none => rw [EnvelopeSignal.invert]; exact nodupPositions_multiply a _

lemma nodupPositions_fromPairs (l : List (ℚ × ℚ)) : nodupPositions (fromPairs l) :=
  nodupPositions_insertAll _ _ (by simp [nodupPositions])

lemma nodupPositions_mkEnvelope : ∀ (entries : List InitEntry) (acc e : EnvelopeSignal),
    List.foldlM initStep acc entries = some e → nodupPositions acc → nodupPositions e := by
  intro entries
  induction entries with
  | nil =>
    intro acc e h hacc
    cases h
    exact hacc
  | cons entry l ih =>
    intro acc e h hacc
    cases entry with
    | pair p v =>
      rw [List.foldlM_cons] at h
      exact ih _ e h (nodupPositions_addBreakpoint acc p (some v) hacc)
    | record p v =>
      rw [List.foldlM_cons] at h
      cases h

/-!  Exactness of `pick` at breakpoint positions. -/

lemma position_inj {l : List Breakpoint} (h : (l.map Breakpoint.position).Nodup)
    {x y : Breakpoint} (hx : x ∈ l) (hy : y ∈ l) (hxy : x.position = y.position) :
    x = y :=
  List.inj_on_of_nodup_map h hx hy hxy

/-- `EnvelopeSignal.prototype.pick` at an exact breakpoint position of an
envelope with pairwise-distinct positions returns that breakpoint's value
exactly: the left scan resolves to the breakpoint itself, so either there
is no strictly-right breakpoint (and its value is returned directly) or
the factor is `0` over a positive denominator. -/
lemma pick_at_mem (e : EnvelopeSignal) (h : nodupPositions e)
    {bp : Breakpoint} (hbp : bp ∈ e.breakpoints) : pick e bp.position = bp.value := by
  cases hL : leftScan e.breakpoints bp.position with
  | none =>
    have := ((foldl_leftStep_eq_none bp.position e.breakpoints none).mp hL).2 bp hbp
    exact absurd this (lt_irrefl _)
  | some l0 =>
    obtain ⟨hmem, hle, hmax⟩ := leftScan_eq_some e.breakpoints bp.position l0 hL
    have hpos : l0.position = bp.position := le_antisymm hle (hmax bp hbp (le_refl _))
    have hl0 : l0 = bp := position_inj h hmem hbp hpos
    subst hl0
    cases hR : rightScan e.breakpoints l0.position with
    | none => simp [pick, hL, hR]
    | some r => simp [pick, hL, hR, sub_self, zero_div, lerp_zero]

lemma find?_position_of_mem : ∀ {l : List Breakpoint},
    (l.map Breakpoint.position).Nodup → ∀ {x : Breakpoint}, x ∈ l →
      l.find? (fun y => y.position == x.position) = some x := by
  intro l
  induction l with
  | nil => intro _ x hx; cases hx
  | cons y l ih =>
    intro hnd x hx
    rw [List.map_cons, List.nodup_cons] at hnd
    rcases List.mem_cons.mp hx with rfl | hx
    · exact List.find?_cons_of_pos _ (by simp)
    · have hne : ¬ ((fun z : Breakpoint => z.position == x.position) y) = true := by
        simp only [beq_iff_eq]
        intro heq
        exact hnd.1 (heq ▸ List.mem_map_of_mem Breakpoint.position hx)
      rw [List.find?_cons_of_neg (p := fun z : Breakpoint => z.position == x.position) _ hne]
      exact ih hnd.2 hx

/-!  The refinement `pick = pickSpec` (claim C1). -/

lemma rightScanIncl_some_le (l : List Breakpoint) (q : ℚ) (r : Breakpoint)
    (h : rightScanIncl l q = some r) : q ≤ r.position :=
  foldl_rightStepIncl_some_le q l none r (by simp) h

lemma pick_eq_pickSpec (e : EnvelopeSignal) (q : ℚ) : pick e q = pickSpec e q := by
  by_cases hq : ∃ bp ∈ e.breakpoints, bp.position = q
  · obtain ⟨b0, hb0, hL, hRi⟩ := scans_at_exact q e.breakpoints none none
      (by simp) (by simp) hq
    have hL' : leftScan e.breakpoints q = some b0 := hL
    have hRi' : rightScanIncl e.breakpoints q = some b0 := hRi
    have hspec : pickSpec e q = b0.value := by
      simp [pickSpec, hL', hRi', hb0, sub_self, zero_div, lerp_zero]
    have hpick : pick e q = b0.value := by
      cases hR : rightScan e.breakpoints q with
      | none => simp [pick, hL', hR]
      | some r => simp [pick, hL', hR, hb0, sub_self, zero_div, lerp_zero]
    rw [hpick, hspec]
  · push_neg at hq
    have hscan : rightScan e.breakpoints q = rightScanIncl e.breakpoints q :=
      foldl_rightStep_eq_incl q e.breakpoints hq none
    cases hL : leftScan e.breakpoints q with
    | none =>
      cases hRi : rightScanIncl e.breakpoints q with
      | none => simp [pick, pickSpec, hscan, hL, hRi]
      | some r => simp [pick, pickSpec, hscan, hL, hRi]
    | some l0 =>
      cases hRi : rightScanIncl e.breakpoints q with
      | none => simp [pick, pickSpec, hscan, hL, hRi]
      | some r =>
        obtain ⟨-, hle, -⟩ := leftScan_eq_some e.breakpoints q l0 hL
        have hqr : q ≤ r.position := rightScanIncl_some_le e.breakpoints q r hRi
        have habs : |r.position - l0.position| = r.position - l0.position :=
          abs_of_nonneg (sub_nonneg.mpr (le_trans hle hqr))
        simp [pick, pickSpec, hscan, hL, hRi, habs]

/-- Claim C1 (confirmed): for every envelope and query, `pick` computes
exactly the four-branch left/right specification of spec section 4.1
(with the spec's inclusive right bound, reading the interpolation factor
at an exact breakpoint position as `0` per the spec's own convention,
which is how the `ℚ` quotient `0/0 = 0` reads); and on the concrete test
envelope `A = [[0,0],[1,1],[2,1],[4,0]]`, `A.pick(3) = 0.5`. -/
theorem claim_C1 : (∀ (e : EnvelopeSignal) (q : ℚ), pick e q = pickSpec e q) ∧
    pick envA 3 = 1/2 := by
  refine ⟨pick_eq_pickSpec, ?_⟩
  norm_num [envA, fromPairs, insertAll, addBreakpoint, breakpointExists, pick,
    leftScan, rightScan, leftStep, rightStep, lerp]

/-- Claim C2 (code bug): `BreakpointEnvelope.prototype.pick` (the
inclusive-right variant, src/index.js lines 256-280) DOES evaluate `0/0`
at an exact breakpoint position: on the envelope with breakpoints
`[(2,5),(4,7)]`, `pick(2)` resolves both bounds to the breakpoint
`(2,5)`, divides by `Math.abs(2-2) = 0` and returns `NaN` (modelled
`none`) instead of the stored value `5` that the claim and spec
section 4.1 require — while the exported `EnvelopeSignal` variant
(strict right bound) does return exactly `5` there. -/
theorem claim_C2 :
    pickBE ⟨[⟨2, 5⟩, ⟨4, 7⟩], 0⟩ 2 = none ∧
    pick ⟨[⟨2, 5⟩, ⟨4, 7⟩], 0⟩ 2 = 5 := by
  constructor
  · norm_num [pickBE, leftScan, rightScanIncl, leftStep, rightStepIncl]
  · norm_num [pick, leftScan, rightScan, leftStep, rightStep, lerp]

/-- Claim C4 (confirmed): inserting at an already-occupied position
returns the failure indicator `false` (modelled `none`) — with or without
an explicit value — and leaves the envelope, hence its breakpoint
sequence and count, unchanged.  (No exception is raised: the embedded
operation is total, matching the source, where `new Breakpoint` is only
reached with a defined position after the duplicate check.) -/
theorem claim_C4 (e : EnvelopeSignal) (p : ℚ) (v? : Option ℚ)
    (h : breakpointExists e p = true) : addBreakpoint e p v? = (e, none) := by
  simp [addBreakpoint, h]

theorem claim_C4_witness :
    breakpointExists (fromPairs [(1, 2)]) 1 = true ∧
    addBreakpoint (fromPairs [(1, 2)]) 1 none = (fromPairs [(1, 2)], none) :=
  ⟨by norm_num [fromPairs, insertAll, addBreakpoint, breakpointExists],
    claim_C4 (fromPairs [(1, 2)]) 1 none
      (by norm_num [fromPairs, insertAll, addBreakpoint, breakpointExists])⟩

/-- Claim C5 (code bug): `deleteBreakpoint` calls
`splice(1, breakpoint)` / `splice(1, indexOf(breakpoint))` instead of
`splice(index, 1)` (src/index.js lines 105 and 111), so on the envelope
`[(0,0),(1,1),(2,2)]`: deleting index `0` removes nothing (splice
deletes 0 elements starting at index 1) yet returns `true`, and deleting
the non-member breakpoint `(5,5)` (indexOf `-1`, delete count clamped to
0) also removes nothing and returns `true` instead of reporting
failure. -/
theorem claim_C5 :
    deleteBreakpoint (fromPairs [(0, 0), (1, 1), (2, 2)]) (.index 0) =
      (fromPairs [(0, 0), (1, 1), (2, 2)], true) ∧
    deleteBreakpoint (fromPairs [(0, 0), (1, 1), (2, 2)]) (.ref ⟨5, 5⟩) =
      (fromPairs [(0, 0), (1, 1), (2, 2)], true) := by
  constructor
  · norm_num [fromPairs, insertAll, addBreakpoint, breakpointExists,
      deleteBreakpoint, spliceAt1]
  · norm_num [fromPairs, insertAll, addBreakpoint, breakpointExists,
      deleteBreakpoint, spliceAt1, jsIndexOf, List.findIdx?]

/-- Claim C7 (code bug): the constructor loop indexes every entry as an
array (line 40 re-tests the outer `breakpoints instanceof Array` instead
of the entry), so a `{position, value}` record entry reaches
`new Breakpoint(undefined, 0)` and the constructor throws
`'Parameter position required'` (modelled `none`) instead of building the
same envelope as the `[position, value]` pair form — which succeeds. -/
theorem claim_C7 :
    mkEnvelope [.record 0 (1/2)] = none ∧
    mkEnvelope [.pair 0 (1/2)] = some ⟨[⟨0, 1/2⟩], 0⟩ := by
  constructor
  · norm_num [mkEnvelope, initStep]
  · norm_num [mkEnvelope, initStep, addBreakpoint, breakpointExists]

/-- Claim C3 (confirmed): `a.add(b)` returns an envelope whose breakpoint
positions are exactly the union of `a`'s and `b`'s positions, sorted
strictly ascending; each position of `a` carries `a`'s value plus
`b.pick` there (a's first-pass value wins on shared positions, via the
silent duplicate-insertion failure), each position of `b` not in `a`
carries `b`'s value plus `a.pick` there; and concretely
`A.add(B)` holds the breakpoints `(0, 0)` and `(5, 0)`. -/
theorem claim_C3 (a b : EnvelopeSignal) (hA : nodupPositions a) (hB : nodupPositions b) :
    (((a.add (.env b)).breakpoints.map Breakpoint.position).Pairwise (· < ·)) ∧
    (∀ p : ℚ, p ∈ (a.add (.env b)).breakpoints.map Breakpoint.position ↔
      (p ∈ a.breakpoints.map Breakpoint.position ∨
        p ∈ b.breakpoints.map Breakpoint.position)) ∧
    (∀ bp ∈ a.breakpoints,
      valueAt (a.add (.env b)) bp.position = some (bp.value + pick b bp.position)) ∧
    (∀ bp ∈ b.breakpoints, bp.position ∉ a.breakpoints.map Breakpoint.position →
      valueAt (a.add (.env b)) bp.position = some (bp.value + pick a bp.position)) ∧
    valueAt (envA.add (.env envB)) 0 = some 0 ∧
    valueAt (envA.add (.env envB)) 5 = some 0 := by
  have hla : ∀ bp : Breakpoint,
      (⟨bp.position, bp.value + pick b bp.position⟩ : Breakpoint).position = bp.position :=
    fun _ => rfl
  set fa : Breakpoint → Breakpoint :=
    fun bp => ⟨bp.position, bp.value + pick b bp.position⟩ with hfa
  set fb : Breakpoint → Breakpoint :=
    fun bp => ⟨bp.position, bp.value + pick a bp.position⟩ with hfb
  have hposA : (a.breakpoints.map fa).map Breakpoint.position =
      a.breakpoints.map Breakpoint.position := by
    rw [List.map_map]; rfl
  have hposB : (b.breakpoints.map fb).map Breakpoint.position =
      b.breakpoints.map Breakpoint.position := by
    rw [List.map_map]; rfl
  have hAl : ((a.breakpoints.map fa).map Breakpoint.position).Nodup := by
    rw [hposA]; exact hA
  have hBl : ((b.breakpoints.map fb).map Breakpoint.position).Nodup := by
    rw [hposB]; exact hB
  have he1 : (insertAll ⟨[], 0⟩ (a.breakpoints.map fa)).breakpoints =
      a.breakpoints.map fa :=
    insertAll_empty_of_nodup _ hAl
  have he2 : (insertAll (insertAll ⟨[], 0⟩ (a.breakpoints.map fa))
      (b.breakpoints.map fb)).breakpoints =
      a.breakpoints.map fa ++ (b.breakpoints.map fb).filter
        (fun bp => decide (bp.position ∉ a.breakpoints.map Breakpoint.position)) := by
    rw [insertAll_breakpoints, he1, hposA, keepNew_eq_filter _ hBl]
  set u := a.breakpoints.map fa ++ (b.breakpoints.map fb).filter
    (fun bp => decide (bp.position ∉ a.breakpoints.map Breakpoint.position)) with hu
  have hadd : a.add (.env b) = sortBreakpoints
      (insertAll (insertAll ⟨[], 0⟩ (a.breakpoints.map fa)) (b.breakpoints.map fb)) := rfl
  have hr : (a.add (.env b)).breakpoints = List.insertionSort posLe u := by
    rw [hadd, sortBreakpoints, he2]
  have hperm : List.Perm (a.add (.env b)).breakpoints u := by
    rw [hr]; exact List.perm_insertionSort posLe u
  have hnd : nodupPositions (a.add (.env b)) := nodupPositions_add a (.env b)
  refine ⟨?_, ?_, ?_, ?_, ?_, ?_⟩
  · have hsorted : List.Pairwise posLe (a.add (.env b)).breakpoints := by
      rw [hr]; exact List.sorted_insertionSort posLe u
    have hne : List.Pairwise (fun x y : Breakpoint => x.position ≠ y.position)
        (a.add (.env b)).breakpoints := List.pairwise_map.mp hnd
    exact List.pairwise_map.mpr ((hsorted.and hne).imp fun h => lt_of_le_of_ne h.1 h.2)
  · intro p
    rw [(hperm.map Breakpoint.position).mem_iff, hu, List.map_append, List.mem_append, hposA]
    have hfil : p ∈ ((b.breakpoints.map fb).filter
        (fun bp => decide (bp.position ∉ a.breakpoints.map Breakpoint.position))).map
          Breakpoint.position ↔
        (p ∈ b.breakpoints.map Breakpoint.position ∧
          p ∉ a.breakpoints.map Breakpoint.position) := by
      simp only [List.mem_map, List.mem_filter, decide_eq_true_eq]
      constructor
      · rintro ⟨x, ⟨⟨y, hy, rfl⟩, hnotin⟩, rfl⟩
        exact ⟨⟨y, hy, rfl⟩, hnotin⟩
      · rintro ⟨⟨y, hy, rfl⟩, hnotin⟩
        exact ⟨fb y, ⟨⟨y, hy, rfl⟩, hnotin⟩, rfl⟩
    rw [hfil]
    by_cases hp : p ∈ a.breakpoints.map Breakpoint.position
    · simp [hp]
    · simp [hp]
  · intro bp hbp
    have hx : fa bp ∈ (a.add (.env b)).breakpoints :=
      hperm.mem_iff.mpr (List.mem_append_left _ (List.mem_map_of_mem fa hbp))
    have hfind : (a.add (.env b)).breakpoints.find?
        (fun y => y.position == bp.position) = some (fa bp) := by
      simpa using find?_position_of_mem hnd hx
    rw [valueAt, hfind]
    rfl
  · intro bp hbp hnot
    have hmemf : fb bp ∈ (b.breakpoints.map fb).filter
        (fun bp => decide (bp.position ∉ a.breakpoints.map Breakpoint.position)) := by
      rw [List.mem_filter]
      exact ⟨List.mem_map_of_mem fb hbp, by simpa using hnot⟩
    have hx : fb bp ∈ (a.add (.env b)).breakpoints :=
      hperm.mem_iff.mpr (List.mem_append_right _ hmemf)
    have hfind : (a.add (.env b)).breakpoints.find?
        (fun y => y.position == bp.position) = some (fb bp) := by
      simpa using find?_position_of_mem hnd hx
    rw [valueAt, hfind]
    rfl
  · norm_num [envA, envB, fromPairs, insertAll, addBreakpoint, breakpointExists,
      EnvelopeSignal.add, sortBreakpoints, List.insertionSort, List.orderedInsert,
      pick, leftScan, rightScan, leftStep, rightStep, lerp, posLe, valueAt, List.find?]
  · have hb : ∀ x y : ℚ, x ≠ y → (x == y) = false := fun x y h => beq_eq_false_iff_ne.mpr h
    norm_num [envA, envB, fromPairs, insertAll, addBreakpoint, breakpointExists,
      EnvelopeSignal.add, sortBreakpoints, List.insertionSort, List.orderedInsert,
      pick, leftScan, rightScan, leftStep, rightStep, lerp, posLe, valueAt, List.find?,
      hb 0 5 (by norm_num), hb 1 5 (by norm_num), hb 2 5 (by norm_num),
      hb 3 5 (by norm_num), hb 4 5 (by norm_num)]

theorem claim_C3_witness :
    nodupPositions envA ∧ nodupPositions envB ∧
    valueAt (envA.add (.env envB)) 3 = some (1 + pick envA 3) :=
  have hA : nodupPositions envA := by
    norm_num [envA, fromPairs, insertAll, addBreakpoint, breakpointExists, nodupPositions]
  have hB : nodupPositions envB := by
    norm_num [envB, fromPairs, insertAll, addBreakpoint, breakpointExists, nodupPositions]
  ⟨hA, hB, by
    have h := (claim_C3 envA envB hA hB).2.2.2.1 ⟨3, 1⟩ (by
      norm_num [envB, fromPairs, insertAll, addBreakpoint, breakpointExists])
      (by norm_num [envA, fromPairs, insertAll, addBreakpoint, breakpointExists])
    simpa using h⟩

/-!  Scalar algebra characterisations (for the invert identity). -/

lemma map_position_map (f : Breakpoint → Breakpoint)
    (hf : ∀ bp, (f bp).position = bp.position) (l : List Breakpoint) :
    (l.map f).map Breakpoint.position = l.map Breakpoint.position := by
  rw [List.map_map]
  exact List.map_congr_left fun bp _ => hf bp

lemma add_num_perm (e : EnvelopeSignal) (k : ℚ) (h : nodupPositions e) :
    List.Perm (e.add (.num k)).breakpoints
      (e.breakpoints.map fun bp => ⟨bp.position, bp.value + k⟩) := by
  have hnd : ((e.breakpoints.map fun bp =>
      (⟨bp.position, bp.value + k⟩ : Breakpoint)).map Breakpoint.position).Nodup := by
    rw [map_position_map (fun bp => (⟨bp.position, bp.value + k⟩ : Breakpoint))
      (fun _ => rfl)]
    exact h
  have hadd : e.add (.num k) = sortBreakpoints (insertAll ⟨[], 0⟩
      (e.breakpoints.map fun bp => ⟨bp.position, bp.value + k⟩)) := rfl
  rw [hadd, sortBreakpoints, insertAll_empty_of_nodup _ hnd]
  exact List.perm_insertionSort posLe _

lemma multiply_num_breakpoints (e : EnvelopeSignal) (k : ℚ) (h : nodupPositions e) :
    (e.multiply (.num k)).breakpoints =
      e.breakpoints.map fun bp => ⟨bp.position, bp.value * k⟩ := by
  have hnd : ((e.breakpoints.map fun bp =>
      (⟨bp.position, bp.value * k⟩ : Breakpoint)).map Breakpoint.position).Nodup := by
    rw [map_position_map (fun bp => (⟨bp.position, bp.value * k⟩ : Breakpoint))
      (fun _ => rfl)]
    exact h
  exact insertAll_empty_of_nodup _ hnd

lemma invert_some_perm (e : EnvelopeSignal) (o : ℚ) (h : nodupPositions e) :
    List.Perm (e.invert (some o)).breakpoints
      (e.breakpoints.map fun bp => ⟨bp.position, 2 * o - bp.value⟩) := by
  have hinv : e.invert (some o) =
      ((e.add (.num (-o))).multiply (.num (-1))).add (.num o) := by
    rw [EnvelopeSignal.invert, EnvelopeSignal.subtract]
  have h1 : nodupPositions (e.add (.num (-o))) := nodupPositions_add e _
  have h2 : nodupPositions ((e.add (.num (-o))).multiply (.num (-1))) :=
    nodupPositions_multiply _ _
  have perm1 := add_num_perm e (-o) h
  have perm3 := add_num_perm ((e.add (.num (-o))).multiply (.num (-1))) o h2
  rw [hinv]
  refine perm3.trans ?_
  rw [multiply_num_breakpoints _ _ h1]
  have perm2 := (perm1.map fun bp =>
    (⟨bp.position, bp.value * (-1)⟩ : Breakpoint)).map fun bp =>
      (⟨bp.position, bp.value + o⟩ : Breakpoint)
  refine perm2.trans ?_
  rw [List.map_map, List.map_map]
  refine List.Perm.of_eq (List.map_congr_left fun bp _ => ?_)
  show (⟨bp.position, (bp.value + -o) * (-1) + o⟩ : Breakpoint) = _
  rw [show (bp.value + -o) * (-1) + o = 2 * o - bp.value from by ring]

/-- Claim C6 (confirmed): `invert(o)` is literally the composition
`subtract(o).multiply(-1).add(o)` (src/index.js line 200), and on every
position in the union of the breakpoint positions of `e` and of
`e.invert(o)` (the two position sets coincide), the inverted envelope
picks the mirror value `2*o - e.pick(p)`. -/
theorem claim_C6 (e : EnvelopeSignal) (o : ℚ) (h : nodupPositions e) :
    e.invert (some o) = ((e.subtract (.num o)).multiply (.num (-1))).add (.num o) ∧
    ∀ p : ℚ, (p ∈ e.breakpoints.map Breakpoint.position ∨
        p ∈ (e.invert (some o)).breakpoints.map Breakpoint.position) →
      pick (e.invert (some o)) p = 2 * o - pick e p := by
  constructor
  · rw [EnvelopeSignal.invert]
  · intro p hp
    have hperm := invert_some_perm e o h
    have hpos : List.Perm ((e.invert (some o)).breakpoints.map Breakpoint.position)
        (e.breakpoints.map Breakpoint.position) := by
      have := hperm.map Breakpoint.position
      rwa [map_position_map (fun bp => (⟨bp.position, 2 * o - bp.value⟩ : Breakpoint))
        (fun _ => rfl)] at this
    have hpe : p ∈ e.breakpoints.map Breakpoint.position := by
      rcases hp with hp | hp
      · exact hp
      · exact hpos.mem_iff.mp hp
    obtain ⟨bp, hbp, rfl⟩ := List.mem_map.mp hpe
    have hx : (⟨bp.position, 2 * o - bp.value⟩ : Breakpoint) ∈
        (e.invert (some o)).breakpoints :=
      hperm.mem_iff.mpr (List.mem_map_of_mem _ hbp)
    have hpick := pick_at_mem (e.invert (some o)) (nodupPositions_invert e (some o)) hx
    have hpe' := pick_at_mem e h hbp
    rw [show (⟨bp.position, 2 * o - bp.value⟩ : Breakpoint).position = bp.position
      from rfl] at hpick
    rw [hpick, hpe']

theorem claim_C6_witness :
    nodupPositions envA ∧ pick (envA.invert (some 1)) 0 = 2 * 1 - pick envA 0 :=
  have hA : nodupPositions envA := by
    norm_num [envA, fromPairs, insertAll, addBreakpoint, breakpointExists, nodupPositions]
  ⟨hA, (claim_C6 envA 1 hA).2 0 (Or.inl (by
    norm_num [envA, fromPairs, insertAll, addBreakpoint, breakpointExists]))⟩

/-!  The distinct-positions invariant over all reachable envelopes, and
the first-occurrence constructor semantics (claim C9). -/

lemma valueAt_fromPairs (l : List (ℚ × ℚ)) (p : ℚ) :
    valueAt (fromPairs l) p = (l.find? fun pv => pv.1 == p).map fun pv => pv.2 := by
  unfold valueAt fromPairs
  rw [insertAll_breakpoints]
  simp only [List.nil_append, List.map_nil]
  rw [find?_keepNew _ _ p (by simp), List.find?_map]
  rw [Option.map_map]
  rfl

/-- Claim C9 (confirmed): every envelope reachable from construction
(empty, from pairs, or from any non-throwing entry list) through
`addBreakpoint`, `deleteBreakpoint`, `sortBreakpoints` and the algebra
operations has pairwise-distinct breakpoint positions; every algebra
result has them unconditionally; and construction keeps the first
occurrence of each duplicated position (the stored value at any position
is the value of the first pair carrying it). -/
theorem claim_C9 :
    (∀ e : EnvelopeSignal, Reachable e → nodupPositions e) ∧
    (∀ (a : EnvelopeSignal) (m : Manip),
      nodupPositions (a.add m) ∧ nodupPositions (a.subtract m) ∧
        nodupPositions (a.multiply m)) ∧
    (∀ (a : EnvelopeSignal) (o : Option ℚ), nodupPositions (a.invert o)) ∧
    (∀ (l : List (ℚ × ℚ)) (p : ℚ),
      valueAt (fromPairs l) p = (l.find? fun pv => pv.1 == p).map fun pv => pv.2) := by
  refine ⟨?_, fun a m => ⟨nodupPositions_add a m, nodupPositions_subtract a m,
    nodupPositions_multiply a m⟩, nodupPositions_invert, valueAt_fromPairs⟩
  intro e hre
  induction hre with
  | ofPairs l => exact nodupPositions_fromPairs l
  | ofMk entries e h =>
      exact nodupPositions_mkEnvelope entries _ e h (by simp [nodupPositions])
  | addBp e p v? _ ih => exact nodupPositions_addBreakpoint e p v? ih
  | delBp e arg _ ih => exact nodupPositions_deleteBreakpoint e arg ih
  | sortBp e _ ih => exact nodupPositions_sortBreakpoints e ih
  | addOp e m _ _ => exact nodupPositions_add e m
  | subOp e m _ _ => exact nodupPositions_subtract e m
  | mulOp e m _ _ => exact nodupPositions_multiply e m
  | invOp e o _ _ => exact nodupPositions_invert e o

theorem claim_C9_witness : nodupPositions (fromPairs [(0, 0), (1, 1)]) :=
  claim_C9.1 (fromPairs [(0, 0), (1, 1)]) (Reachable.ofPairs [(0, 0), (1, 1)])

/-!  Default values of algebra results (claim C10). -/

lemma add_defaultValue (e : EnvelopeSignal) (m : Manip) : (e.add m).defaultValue = 0 := by
  cases m with
  | num k =>
      show (sortBreakpoints _).defaultValue = 0
      rw [sortBreakpoints, insertAll_defaultValue]
  | env b =>
      show (sortBreakpoints _).defaultValue = 0
      rw [sortBreakpoints, insertAll_defaultValue, insertAll_defaultValue]

lemma multiply_defaultValue (e : EnvelopeSignal) (m : Manip) :
    (e.multiply m).defaultValue = 0 := by
  cases m with
  | num k => exact insertAll_defaultValue _ _
  | env b => rfl

lemma subtract_defaultValue (e : EnvelopeSignal) (m : Manip) :
    (e.subtract m).defaultValue = 0 := by
  cases m with
  | num k => rw [EnvelopeSignal.subtract]; exact add_defaultValue e _
  | env b => rw [EnvelopeSignal.subtract]; exact add_defaultValue e _

lemma invert_defaultValue (e : EnvelopeSignal) (o : Option ℚ) :
    (e.invert o).defaultValue = 0 := by
  cases o with
  | some origin => rw [EnvelopeSignal.invert]; exact add_defaultValue _ _
  | none => rw [EnvelopeSignal.invert]; exact multiply_defaultValue e _

/-- Claim C10 (confirmed): every algebra result is built on
`new EnvelopeSignal()` and therefore carries `defaultValue 0` whatever
the operands' default values were; in particular an empty envelope with
nonzero default `d` picks `0` (not `d`) everywhere after `add(0)`. -/
theorem claim_C10 :
    (∀ (e : EnvelopeSignal) (m : Manip), (e.add m).defaultValue = 0 ∧
      (e.subtract m).defaultValue = 0 ∧ (e.multiply m).defaultValue = 0) ∧
    (∀ (e : EnvelopeSignal) (o : Option ℚ), (e.invert o).defaultValue = 0) ∧
    (∀ (d q : ℚ), d ≠ 0 →
      pick ((⟨[], d⟩ : EnvelopeSignal).add (.num 0)) q = 0 ∧
      pick ((⟨[], d⟩ : EnvelopeSignal).add (.num 0)) q ≠ d) := by
  refine ⟨fun e m => ⟨add_defaultValue e m, subtract_defaultValue e m,
    multiply_defaultValue e m⟩, invert_defaultValue, ?_⟩
  intro d q hd
  have hpick : pick ((⟨[], d⟩ : EnvelopeSignal).add (.num 0)) q = 0 := rfl
  exact ⟨hpick, fun hcontr => hd ((hpick ▸ hcontr).symm)⟩

theorem claim_C10_witness :
    pick ((⟨[], 5⟩ : EnvelopeSignal).add (.num 0)) 7 = 0 ∧
    pick ((⟨[], 5⟩ : EnvelopeSignal).add (.num 0)) 7 ≠ 5 :=
  claim_C10.2.2 5 7 (by norm_num)

/-!  Frame lemmas of the store model (claim C8): the algebra methods
write only into the freshly allocated result object. -/

/-- The result store preserves every pre-existing object, and the
returned reference is fresh (at or above the old store length) and valid
in the result store. -/
def framePreserved (σ : Store) (out : Store × Nat) : Prop :=
  (∀ i, i < σ.length → getE out.1 i = getE σ i) ∧
    σ.length ≤ out.2 ∧ out.2 < out.1.length

lemma getE_append_lt (σ : Store) (x : EnvelopeSignal) (i : Nat) (h : i < σ.length) :
    getE (σ ++ [x]) i = getE σ i := by
  unfold getE
  rw [List.getD_eq_getElem?_getD, List.getD_eq_getElem?_getD, List.getElem?_append_left h]

lemma getE_set_ne (σ : Store) (r : Nat) (x : EnvelopeSignal) (i : Nat) (h : r ≠ i) :
    getE (List.set σ r x) i = getE σ i := by
  unfold getE
  rw [List.getD_eq_getElem?_getD, List.getD_eq_getElem?_getD, List.getElem?_set_ne h]

lemma insertLoopS_frame (rres : Nat) (g : Store → Breakpoint → ℚ) :
    ∀ (l : List Breakpoint) (σ : Store),
      (insertLoopS rres g l σ).length = σ.length ∧
      ∀ i, i ≠ rres → getE (insertLoopS rres g l σ) i = getE σ i := by
  intro l
  induction l with
  | nil => intro σ; exact ⟨rfl, fun _ _ => rfl⟩
  | cons bp l ih =>
    intro σ
    have hstep : insertLoopS rres g (bp :: l) σ =
        insertLoopS rres g l (addBreakpointS σ rres bp.position (some (g σ bp))).1 := rfl
    obtain ⟨ihlen, ihget⟩ := ih (addBreakpointS σ rres bp.position (some (g σ bp))).1
    constructor
    · rw [hstep, ihlen]
      simp [addBreakpointS]
    · intro i hi
      rw [hstep, ihget i hi]
      exact getE_set_ne σ rres _ i (fun h => hi h.symm)

lemma frame_comp {σ σ' σ'' : Store} {r' r'' : Nat}
    (h1 : framePreserved σ (σ', r')) (h2 : framePreserved σ' (σ'', r'')) :
    framePreserved σ (σ'', r'') := by
  obtain ⟨hget1, hle1, hlt1⟩ := h1
  obtain ⟨hget2, hle2, hlt2⟩ := h2
  have hlen : σ.length ≤ σ'.length := le_trans hle1 (le_of_lt hlt1)
  exact ⟨fun i hi => (hget2 i (lt_of_lt_of_le hi hlen)).trans (hget1 i hi),
    le_trans hlen hle2, hlt2⟩

lemma addS_frame (σ : Store) (self : Nat) (m : ManipS) :
    framePreserved σ (addS σ self m) := by
  cases m with
  | num k =>
    obtain ⟨hlen2, hget2⟩ := insertLoopS_frame σ.length (fun _ bp => bp.value + k)
      (getE (σ ++ [⟨[], 0⟩]) self).breakpoints (σ ++ [⟨[], 0⟩])
    refine ⟨fun i hi => ?_, ?_, ?_⟩
    · show getE (List.set _ σ.length _) i = getE σ i
      rw [getE_set_ne _ σ.length _ i (Nat.ne_of_gt hi), hget2 i (Nat.ne_of_lt hi),
        getE_append_lt σ _ i hi]
    · exact le_refl _
    · show σ.length < (List.set _ σ.length _).length
      rw [List.length_set, hlen2, List.length_append]
      simp
  | env rm =>
    obtain ⟨hlen2, hget2⟩ := insertLoopS_frame σ.length
      (fun st bp => bp.value + pickS st rm bp.position)
      (getE (σ ++ [⟨[], 0⟩]) self).breakpoints (σ ++ [⟨[], 0⟩])
    obtain ⟨hlen3, hget3⟩ := insertLoopS_frame σ.length
      (fun st bp => bp.value + pickS st self bp.position)
      (getE (insertLoopS σ.length (fun st bp => bp.value + pickS st rm bp.position)
        (getE (σ ++ [⟨[], 0⟩]) self).breakpoints (σ ++ [⟨[], 0⟩])) rm).breakpoints
      (insertLoopS σ.length (fun st bp => bp.value + pickS st rm bp.position)
        (getE (σ ++ [⟨[], 0⟩]) self).breakpoints (σ ++ [⟨[], 0⟩]))
    refine ⟨fun i hi => ?_, ?_, ?_⟩
    · show getE (List.set _ σ.length _) i = getE σ i
      rw [getE_set_ne _ σ.length _ i (Nat.ne_of_gt hi), hget3 i (Nat.ne_of_lt hi),
        hget2 i (Nat.ne_of_lt hi), getE_append_lt σ _ i hi]
    · exact le_refl _
    · show σ.length < (List.set _ σ.length _).length
      rw [List.length_set, hlen3, hlen2, List.length_append]
      simp

lemma multiplyS_frame (σ : Store) (self : Nat) (m : ManipS) :
    framePreserved σ (multiplyS σ self m) := by
  cases m with
  | num k =>
    obtain ⟨hlen2, hget2⟩ := insertLoopS_frame σ.length (fun _ bp => bp.value * k)
      (getE (σ ++ [⟨[], 0⟩]) self).breakpoints (σ ++ [⟨[], 0⟩])
    refine ⟨fun i hi => ?_, le_refl _, ?_⟩
    · show getE (insertLoopS _ _ _ _) i = getE σ i
      rw [hget2 i (Nat.ne_of_lt hi), getE_append_lt σ _ i hi]
    · show σ.length < (insertLoopS _ _ _ _).length
      rw [hlen2, List.length_append]
      simp
  | env rm =>
    refine ⟨fun i hi => getE_append_lt σ _ i hi, le_refl _, ?_⟩
    show σ.length < (σ ++ [(⟨[], 0⟩ : EnvelopeSignal)]).length
    rw [List.length_append]
    simp

lemma subtractS_frame (σ : Store) (self : Nat) (m : ManipS) :
    framePreserved σ (subtractS σ self m) := by
  cases m with
  | num k => rw [subtractS]; exact addS_frame σ self _
  | env rm =>
    rw [subtractS]
    have hinv : invertS σ rm none = multiplyS σ rm (.num (-1)) := by rw [invertS]
    rw [hinv]
    exact frame_comp (multiplyS_frame σ rm (.num (-1)))
      (addS_frame (multiplyS σ rm (.num (-1))).1 self
        (.env (multiplyS σ rm (.num (-1))).2))

lemma invertS_frame (σ : Store) (self : Nat) (o : Option ℚ) :
    framePreserved σ (invertS σ self o) := by
  cases o with
  | some origin =>
    rw [invertS]
    have hsub : subtractS σ self (.num origin) = addS σ self (.num (-origin)) := by
      rw [subtractS]
    rw [hsub]
    refine frame_comp (frame_comp (addS_frame σ self (.num (-origin)))
      (multiplyS_frame (addS σ self (.num (-origin))).1
        (addS σ self (.num (-origin))).2 (.num (-1)))) ?_
    exact addS_frame _ _ (.num origin)
  | none =>
    rw [invertS]
    exact multiplyS_frame σ self _

/-- Claim C8 (confirmed): in the heap model, every algebra operation
writes only into its freshly allocated result object: every envelope
already in the store — in particular the receiver and an envelope
manipulator — keeps its breakpoint sequence and default value, and the
returned reference is a new allocation, never a pre-existing object. -/
theorem claim_C8 (σ : Store) (self : Nat) (m : ManipS) (o : Option ℚ) :
    (∀ i, i < σ.length →
      getE (addS σ self m).1 i = getE σ i ∧
      getE (multiplyS σ self m).1 i = getE σ i ∧
      getE (subtractS σ self m).1 i = getE σ i ∧
      getE (invertS σ self o).1 i = getE σ i) ∧
    σ.length ≤ (addS σ self m).2 ∧ σ.length ≤ (multiplyS σ self m).2 ∧
    σ.length ≤ (subtractS σ self m).2 ∧ σ.length ≤ (invertS σ self o).2 :=
  ⟨fun i hi => ⟨(addS_frame σ self m).1 i hi, (multiplyS_frame σ self m).1 i hi,
      (subtractS_frame σ self m).1 i hi, (invertS_frame σ self o).1 i hi⟩,
    (addS_frame σ self m).2.1, (multiplyS_frame σ self m).2.1,
    (subtractS_frame σ self m).2.1, (invertS_frame σ self o).2.1⟩

theorem claim_C8_witness :
    getE (addS [envA, envB] 0 (.env 1)).1 0 = getE [envA, envB] 0 ∧
    getE (addS [envA, envB] 0 (.env 1)).1 1 = getE [envA, envB] 1 :=
  ⟨((claim_C8 [envA, envB] 0 (.env 1) none).1 0 (by simp)).1,
    ((claim_C8 [envA, envB] 0 (.env 1) none).1 1 (by simp)).1⟩

end EnvSig
